import Mathlib

/-!
Shallow embedding of `src/textual/_cache.py`: the `LRUCache` and `FIFOCache`
containers, with their public operations (`set`, `get`, indexed access,
`grow`, the `maxsize` property setter, `clear`, membership), and proofs of the
specified properties.

Modelling conventions:
* A Python `dict` (which iterates in insertion order) is a `List (K × V)`
  with unique keys; assignment `d[k] = v` updates the first entry with key
  `k` in place, otherwise appends; `d.pop(k)` removes the entry with key `k`;
  `next(iter(d.keys()))` is `head?`.
* The intrusive circular doubly-linked ring of `LRUCache` is represented by
  the list of its `(key, value)` nodes read from the head node following the
  NEXT links, i.e. in descending recency order; the head of the list is the
  most-recently-used node and the last element is the tail (the head node
  field PREV).  The code keeps the dictionary `_cache` and the ring in
  lockstep (every insertion adds the node to both, every eviction detaches
  the tail node and deletes its key), so the single list represents both.
* `maxsize` is a Python `int`, so it is modelled as `Int`; the counters
  `hits` and `misses` start at 0 and are only ever incremented, so `Nat`.
* A raised exception is modelled by an `Option` result (`none` = raise);
  the `Lock` only serialises the operations and has no observable effect in
  a sequential semantics, so it is not represented.
-/

set_option autoImplicit false

variable {K V : Type} [DecidableEq K]

/-- Python ordered-dict lookup `d.get(k)`: value of the first entry whose key
is `k`, if any. -/
def dictLookup : List (K × V) → K → Option V
  | [], _ => none
  | e :: rest, k => if e.1 = k then some e.2 else dictLookup rest k

/-- Python `k in d`: membership of a key. -/
def dictContains : List (K × V) → K → Bool
  | [], _ => false
  | e :: rest, k => if e.1 = k then true else dictContains rest k

/-- Python `d[k] = v`: overwrite the value of an existing key in place
(keeping its insertion-order position), otherwise append the new entry. -/
def dictInsert : List (K × V) → K → V → List (K × V)
  | [], k, v => [(k, v)]
  | e :: rest, k, v => if e.1 = k then (k, v) :: rest else e :: dictInsert rest k v

/-- Python `d.pop(k)` for a present key: remove the entry whose key is `k`. -/
def dictPop : List (K × V) → K → List (K × V)
  | [], _ => []
  | e :: rest, k => if e.1 = k then rest else e :: dictPop rest k

/-- Key of the head node of a ring (the first element of a dict). -/
def headKey (d : List (K × V)) : Option K :=
  d.head?.map Prod.fst

/-- State of `LRUCache` from `src/textual/_cache.py`.  `ring` lists the
linked nodes from `_head` in NEXT order (most recent first); the dictionary
`_cache` holds exactly the keys of `ring`. -/
structure LRUCache (K V : Type) where
  maxsize : Int
  ring : List (K × V)
  full : Bool
  hits : Nat
  misses : Nat
deriving DecidableEq, Repr

/-- `LRUCache.__init__(maxsize)`. -/
def LRUCache.mk0 (maxsize : Int) : LRUCache K V :=
  { maxsize := maxsize, ring := [], full := false, hits := 0, misses := 0 }

/-- `len(self._cache)`. -/
def LRUCache.size (c : LRUCache K V) : Nat :=
  c.ring.length

/-- `self._cache.keys()`. -/
def LRUCache.keys (c : LRUCache K V) : List K :=
  c.ring.map Prod.fst

/-- The `maxsize` property setter: `self._maxsize = maxsize`. -/
def LRUCache.setMaxsize (c : LRUCache K V) (maxsize : Int) : LRUCache K V :=
  { c with maxsize := maxsize }

/-- `LRUCache.grow`: `self.maxsize = max(self.maxsize, maxsize)` (through the
property setter). -/
def LRUCache.grow (c : LRUCache K V) (maxsize : Int) : LRUCache K V :=
  c.setMaxsize (max c.maxsize maxsize)

/-- `LRUCache.clear`: empty the mapping and the ring, reset `_full`. -/
def LRUCache.clear (c : LRUCache K V) : LRUCache K V :=
  { c with ring := [], full := false }

/-- `LRUCache.set`: if `self._cache.get(key)` finds a link, nothing happens;
otherwise the new node is linked in as the new head and, when `_full` is
already set or the mapping now exceeds `_maxsize`, the tail node
(`head[PREV]`) is unlinked and its key deleted (`dropLast` of the ring). -/
def LRUCache.set (c : LRUCache K V) (key : K) (value : V) : LRUCache K V :=
  match dictLookup c.ring key with
  | some _ => c
  | none =>
    if c.full = true ∨ ((c.ring.length : Int) + 1) > c.maxsize then
      { c with ring := ((key, value) :: c.ring).dropLast, full := true }
    else
      { c with ring := (key, value) :: c.ring }

/-- `LRUCache.get(key, default)`: on a miss, increment `misses` (the caller
receives the default, encoded here as `none`); on a hit, relink the node as
the new head unless it already is the head (`link is not self._head` holds
exactly when the head key differs from `key`, keys being unique), then
increment `hits` and return the value. -/
def LRUCache.get (c : LRUCache K V) (key : K) : Option V × LRUCache K V :=
  match dictLookup c.ring key with
  | none => (none, { c with misses := c.misses + 1 })
  | some v =>
    if headKey c.ring = some key then
      (some v, { c with hits := c.hits + 1 })
    else
      (some v, { c with ring := (key, v) :: dictPop c.ring key, hits := c.hits + 1 })

/-- `LRUCache.__getitem__`: same state transition as `get`, but a miss raises
`KeyError` (the `none` component) instead of returning a default. -/
def LRUCache.getItem (c : LRUCache K V) (key : K) : Option V × LRUCache K V :=
  match dictLookup c.ring key with
  | none => (none, { c with misses := c.misses + 1 })
  | some v =>
    if headKey c.ring = some key then
      (some v, { c with hits := c.hits + 1 })
    else
      (some v, { c with ring := (key, v) :: dictPop c.ring key, hits := c.hits + 1 })

/-- `LRUCache.__contains__`: `key in self._cache`. -/
def LRUCache.contains (c : LRUCache K V) (key : K) : Bool :=
  dictContains c.ring key

/-- Fold a list of `set` calls over an `LRUCache`. -/
def LRUCache.setAll (c : LRUCache K V) : List (K × V) → LRUCache K V
  | [] => c
  | (k, v) :: rest => (c.set k v).setAll rest

/-- Apply a sequence of lookups of `key` to an `LRUCache`: `true` stands for
a `get` call, `false` for an indexed access. -/
def LRUCache.lookupSeq (c : LRUCache K V) (key : K) : List Bool → LRUCache K V
  | [] => c
  | b :: rest =>
    LRUCache.lookupSeq (if b then (c.get key).2 else (c.getItem key).2) key rest

/-- State of `FIFOCache` from `src/textual/_cache.py`: an insertion-ordered
dictionary plus the counters. -/
structure FIFOCache (K V : Type) where
  maxsize : Int
  cache : List (K × V)
  hits : Nat
  misses : Nat
deriving DecidableEq, Repr

/-- `FIFOCache.__init__(maxsize)`. -/
def FIFOCache.mk0 (maxsize : Int) : FIFOCache K V :=
  { maxsize := maxsize, cache := [], hits := 0, misses := 0 }

/-- `self._cache.keys()`. -/
def FIFOCache.keys (c : FIFOCache K V) : List K :=
  c.cache.map Prod.fst

/-- `FIFOCache.set`: when the key is new and the dict is at or above
capacity, pop the first key (`next(iter(self._cache.keys()))`) before the
assignment; `next` on an empty dict raises `StopIteration`, modelled as
`none`. -/
def FIFOCache.set (c : FIFOCache K V) (key : K) (value : V) :
    Option (FIFOCache K V) :=
  if dictContains c.cache key = false ∧ (c.cache.length : Int) ≥ c.maxsize then
    match c.cache.head? with
    | none => none
    | some e =>
      some { c with cache := dictInsert (dictPop c.cache e.1) key value }
  else
    some { c with cache := dictInsert c.cache key value }

/-- `FIFOCache.get(key, default)`: `self._cache.get(key, default)`, with no
state change at all. -/
def FIFOCache.get (c : FIFOCache K V) (key : K) (default : V) : V :=
  (dictLookup c.cache key).getD default

/-- `FIFOCache.__getitem__`: returning the value passes through the
`finally` block, so a hit increments `hits`; on a `KeyError` the handler
increments `misses`, re-raises, and the `finally` block still increments
`hits`. -/
def FIFOCache.getItem (c : FIFOCache K V) (key : K) :
    Option V × FIFOCache K V :=
  match dictLookup c.cache key with
  | some v => (some v, { c with hits := c.hits + 1 })
  | none => (none, { c with misses := c.misses + 1, hits := c.hits + 1 })

/-- Fold a list of `set` calls over a `FIFOCache`, stopping at a raised
exception. -/
def FIFOCache.setAll (c : FIFOCache K V) : List (K × V) → Option (FIFOCache K V)
  | [] => some c
  | (k, v) :: rest =>
    match c.set k v with
    | none => none
    | some c2 => c2.setAll rest

/-! Basic facts about the ordered-dict operations. -/

theorem dictContains_cons_elim {e : K × V} {t : List (K × V)} {k : K}
    (h : dictContains (e :: t) k = false) : e.1 ≠ k ∧ dictContains t k = false := by
  by_cases he : e.1 = k
  · simp [dictContains, he] at h
  · simp [dictContains, he] at h
    exact ⟨he, h⟩

theorem dictLookup_isSome_of_contains {d : List (K × V)} {k : K}
    (h : dictContains d k = true) : ∃ v, dictLookup d k = some v := by
  induction d with
  | nil => simp [dictContains] at h
  | cons e rest ih =>
    by_cases he : e.1 = k
    · exact ⟨e.2, by simp [dictLookup, he]⟩
    · simp [dictContains, he] at h
      simpa [dictLookup, he] using ih h

theorem dictContains_of_lookup_some {d : List (K × V)} {k : K} {v : V}
    (h : dictLookup d k = some v) : dictContains d k = true := by
  induction d with
  | nil => simp [dictLookup] at h
  | cons e rest ih =>
    by_cases he : e.1 = k
    · simp [dictContains, he]
    · simp [dictLookup, he] at h
      simpa [dictContains, he] using ih h

theorem length_dictInsert_of_contains {d : List (K × V)} {k : K}
    (h : dictContains d k = true) (v : V) :
    (dictInsert d k v).length = d.length := by
  induction d with
  | nil => simp [dictContains] at h
  | cons e rest ih =>
    by_cases he : e.1 = k
    · simp [dictInsert, he]
    · simp [dictContains, he] at h
      simp [dictInsert, he, ih h]

theorem length_dictInsert_of_not_contains {d : List (K × V)} {k : K}
    (h : dictContains d k = false) (v : V) :
    (dictInsert d k v).length = d.length + 1 := by
  induction d with
  | nil => simp [dictInsert]
  | cons e rest ih =>
    obtain ⟨he, ht⟩ := dictContains_cons_elim h
    simp [dictInsert, he, ih ht]

theorem map_fst_dictInsert_of_contains {d : List (K × V)} {k : K}
    (h : dictContains d k = true) (v : V) :
    (dictInsert d k v).map Prod.fst = d.map Prod.fst := by
  induction d with
  | nil => simp [dictContains] at h
  | cons e rest ih =>
    by_cases he : e.1 = k
    · simp [dictInsert, he]
    · simp [dictContains, he] at h
      simp [dictInsert, he, ih h]

theorem dictLookup_dictInsert_self (d : List (K × V)) (k : K) (v : V) :
    dictLookup (dictInsert d k v) k = some v := by
  induction d with
  | nil => simp [dictInsert, dictLookup]
  | cons e rest ih =>
    by_cases he : e.1 = k
    · simp [dictInsert, he, dictLookup]
    · simp [dictInsert, he, dictLookup, ih]

theorem dictLookup_dictInsert_of_ne {k2 k : K} (hne : k2 ≠ k)
    (d : List (K × V)) (v : V) :
    dictLookup (dictInsert d k v) k2 = dictLookup d k2 := by
  induction d with
  | nil => simp [dictInsert, dictLookup, Ne.symm hne]
  | cons e rest ih =>
    by_cases he : e.1 = k
    · simp [dictInsert, he, dictLookup, Ne.symm hne]
    · simp [dictInsert, he, dictLookup, ih]

/-! State-transition lemmas for the cache operations. -/

theorem LRUCache.set_maxsize (c : LRUCache K V) (k : K) (v : V) :
    (c.set k v).maxsize = c.maxsize := by
  cases h : dictLookup c.ring k with
  | some v0 => simp [LRUCache.set, h]
  | none =>
    simp only [LRUCache.set, h]
    split <;> rfl

theorem LRUCache.set_size_le (c : LRUCache K V) (k : K) (v : V)
    (h : (c.size : Int) ≤ c.maxsize) :
    ((c.set k v).size : Int) ≤ c.maxsize := by
  cases hL : dictLookup c.ring k with
  | some v0 => simpa [LRUCache.set, hL] using h
  | none =>
    simp only [LRUCache.set, hL, LRUCache.size] at h ⊢
    split
    · rw [List.length_dropLast, List.length_cons]
      simpa using h
    · rename_i hcond
      push_neg at hcond
      rw [List.length_cons]
      push_cast
      omega

theorem LRUCache.setAll_bound (ops : List (K × V)) :
    ∀ c : LRUCache K V, (c.size : Int) ≤ c.maxsize →
      ((c.setAll ops).size : Int) ≤ (c.setAll ops).maxsize ∧
        (c.setAll ops).maxsize = c.maxsize := by
  induction ops with
  | nil => exact fun c h => ⟨h, rfl⟩
  | cons e rest ih =>
    intro c h
    obtain ⟨k, v⟩ := e
    have h1 := LRUCache.set_size_le c k v h
    have h2 := LRUCache.set_maxsize c k v
    have h3 := ih (c.set k v) (by rw [h2]; exact h1)
    simpa [LRUCache.setAll] using ⟨h3.1, h3.2.trans h2⟩

theorem LRUCache.get_maxsize (c : LRUCache K V) (k : K) :
    ((c.get k).2).maxsize = c.maxsize := by
  cases h : dictLookup c.ring k with
  | none => simp [LRUCache.get, h]
  | some v =>
    simp only [LRUCache.get, h]
    split <;> rfl

theorem LRUCache.getItem_maxsize (c : LRUCache K V) (k : K) :
    ((c.getItem k).2).maxsize = c.maxsize := by
  cases h : dictLookup c.ring k with
  | none => simp [LRUCache.getItem, h]
  | some v =>
    simp only [LRUCache.getItem, h]
    split <;> rfl

theorem LRUCache.get_head_state (c : LRUCache K V) (key : K)
    (h : headKey c.ring = some key) :
    (c.get key).2 = { c with hits := c.hits + 1 } := by
  rcases hr : c.ring with _ | ⟨e, t⟩
  · rw [headKey, hr] at h
    simp at h
  · have he : e.1 = key := by
      rw [headKey, hr] at h
      simpa using h
    simp [LRUCache.get, hr, dictLookup, he, headKey]

theorem LRUCache.getItem_head_state (c : LRUCache K V) (key : K)
    (h : headKey c.ring = some key) :
    (c.getItem key).2 = { c with hits := c.hits + 1 } := by
  rcases hr : c.ring with _ | ⟨e, t⟩
  · rw [headKey, hr] at h
    simp at h
  · have he : e.1 = key := by
      rw [headKey, hr] at h
      simpa using h
    simp [LRUCache.getItem, hr, dictLookup, he, headKey]

theorem FIFOCache.set_preserves (c : FIFOCache K V) (k : K) (v : V)
    (hm : 0 < c.maxsize) (h : (c.cache.length : Int) ≤ c.maxsize) :
    ∃ c2, c.set k v = some c2 ∧ c2.maxsize = c.maxsize ∧
      (c2.cache.length : Int) ≤ c2.maxsize := by
  by_cases hc : dictContains c.cache k = true
  · have hset : c.set k v = some { c with cache := dictInsert c.cache k v } := by
      unfold FIFOCache.set
      rw [if_neg]
      intro hand
      rw [hand.1] at hc
      exact Bool.false_ne_true hc
    refine ⟨_, hset, rfl, ?_⟩
    dsimp
    rw [length_dictInsert_of_contains hc]
    exact h
  · have hc2 : dictContains c.cache k = false := by
      revert hc
      cases dictContains c.cache k <;> simp
    by_cases hlen : (c.cache.length : Int) ≥ c.maxsize
    · rcases hcc : c.cache with _ | ⟨e, t⟩
      · exfalso
        rw [hcc] at hlen
        simp at hlen
        omega
      · have hset : c.set k v = some { c with cache := dictInsert t k v } := by
          unfold FIFOCache.set
          rw [if_pos ⟨hc2, hlen⟩, hcc]
          simp [dictPop]
        have hct : dictContains t k = false := by
          rw [hcc] at hc2
          exact (dictContains_cons_elim hc2).2
        refine ⟨_, hset, rfl, ?_⟩
        dsimp
        rw [length_dictInsert_of_not_contains hct]
        rw [hcc] at h
        rw [List.length_cons] at h
        push_cast at h ⊢
        omega
    · have hset : c.set k v = some { c with cache := dictInsert c.cache k v } := by
        unfold FIFOCache.set
        rw [if_neg]
        exact fun hand => hlen hand.2
      refine ⟨_, hset, rfl, ?_⟩
      dsimp
      rw [length_dictInsert_of_not_contains hc2]
      push_cast
      omega

theorem FIFOCache.setAll_preserves (ops : List (K × V)) :
    ∀ c : FIFOCache K V, 0 < c.maxsize → (c.cache.length : Int) ≤ c.maxsize →
      ∃ c2, c.setAll ops = some c2 ∧ c2.maxsize = c.maxsize ∧
        (c2.cache.length : Int) ≤ c2.maxsize := by
  induction ops with
  | nil => exact fun c _ h => ⟨c, rfl, rfl, h⟩
  | cons e rest ih =>
    intro c hm h
    obtain ⟨k, v⟩ := e
    obtain ⟨c2, hset, hmax, hlen⟩ := FIFOCache.set_preserves c k v hm h
    obtain ⟨c3, hall, hmax3, hlen3⟩ := ih c2 (by rw [hmax]; exact hm) hlen
    exact ⟨c3, by simpa [FIFOCache.setAll, hset] using hall, hmax3.trans hmax, hlen3⟩

/-! Claim theorems. -/

/-- C1: for every cache (`LRUCache` or `FIFOCache`) constructed with a
positive `maxsize` and every sequence of `set` calls with pairwise-distinct
keys, after each `set` call (i.e. after every initial segment of the call
sequence) the number of entries in the mapping is at most `maxsize`; for the
FIFO cache the calls moreover all succeed. -/
theorem C1_capacity_invariant (m : Int) (hm : 0 < m)
    (ops : List (K × V)) (_hnd : (ops.map Prod.fst).Nodup) (n : Nat) :
    (((LRUCache.mk0 m : LRUCache K V).setAll (ops.take n)).size : Int) ≤ m ∧
    ∃ c2 : FIFOCache K V,
      (FIFOCache.mk0 m : FIFOCache K V).setAll (ops.take n) = some c2 ∧
        (c2.cache.length : Int) ≤ m := by
  constructor
  · have h0 : (((LRUCache.mk0 m : LRUCache K V)).size : Int) ≤
        (LRUCache.mk0 m : LRUCache K V).maxsize := by
      simp [LRUCache.mk0, LRUCache.size]
      omega
    have h := LRUCache.setAll_bound (ops.take n) (LRUCache.mk0 m) h0
    rw [h.2] at h
    exact h.1
  · have h0 : (((FIFOCache.mk0 m : FIFOCache K V)).cache.length : Int) ≤
        (FIFOCache.mk0 m : FIFOCache K V).maxsize := by
      simp [FIFOCache.mk0]
      omega
    obtain ⟨c2, hall, hmax, hlen⟩ :=
      FIFOCache.setAll_preserves (ops.take n) (FIFOCache.mk0 m) hm h0
    exact ⟨c2, hall, by rw [hmax] at hlen; exact hlen⟩

/-- Witness for C1 at a concrete instance. -/
theorem C1_capacity_invariant_witness :
    (((LRUCache.mk0 2 : LRUCache Nat Nat).setAll
        ([(1, 10), (2, 20), (3, 30)].take 3)).size : Int) ≤ 2 ∧
    ∃ c2 : FIFOCache Nat Nat,
      (FIFOCache.mk0 2 : FIFOCache Nat Nat).setAll
          ([(1, 10), (2, 20), (3, 30)].take 3) = some c2 ∧
        (c2.cache.length : Int) ≤ 2 :=
  C1_capacity_invariant 2 (by decide) [(1, 10), (2, 20), (3, 30)] (by decide) 3

/-- C2: if a key is already present in the mapping of an `LRUCache`, then
`set key value` is a complete no-op: the result state equals the input state,
so the stored value is not updated, the ring order is unchanged (no
promotion), no eviction happens, and mapping, counters and `full` flag are
untouched. -/
theorem C2_set_existing_key_noop (c : LRUCache K V) (key : K) (value : V)
    (h : dictContains c.ring key = true) :
    c.set key value = c := by
  obtain ⟨v0, hv⟩ := dictLookup_isSome_of_contains h
  simp [LRUCache.set, hv]

/-- Witness for C2 at a concrete instance. -/
theorem C2_set_existing_key_noop_witness :
    ((LRUCache.mk0 2 : LRUCache Nat Nat).set 1 10).set 1 99 =
      (LRUCache.mk0 2 : LRUCache Nat Nat).set 1 10 :=
  C2_set_existing_key_noop ((LRUCache.mk0 2 : LRUCache Nat Nat).set 1 10) 1 99
    (by decide)

/-- C3: the concrete scenario on a fresh `LRUCache` with `maxsize = 2`:
after `set "a" 1; set "b" 2`, the call `get "a"` returns `1` and leaves
`hits = 1`; the following `set "c" 3` evicts `"b"` (the least recently used,
`"a"` having been promoted), so `"b"` is no longer contained while `"a"`
still is. -/
theorem C3_concrete_scenario :
    ((((LRUCache.mk0 2 : LRUCache String Nat).set "a" 1).set "b" 2).get "a").1 =
        some 1 ∧
    ((((LRUCache.mk0 2 : LRUCache String Nat).set "a" 1).set "b" 2).get
          "a").2.hits = 1 ∧
    (((((LRUCache.mk0 2 : LRUCache String Nat).set "a" 1).set "b" 2).get
          "a").2.set "c" 3).contains "b" = false ∧
    (((((LRUCache.mk0 2 : LRUCache String Nat).set "a" 1).set "b" 2).get
          "a").2.set "c" 3).contains "a" = true := by
  decide

/-- C5: on a `FIFOCache`, indexed access of an absent key raises `KeyError`
(the `none` component) and increments both `misses` (in the handler) and
`hits` (in the unconditional `finally` block). -/
theorem C5_fifo_getitem_miss_double_count (c : FIFOCache K V) (key : K)
    (h : dictLookup c.cache key = none) :
    c.getItem key =
      (none, { c with misses := c.misses + 1, hits := c.hits + 1 }) := by
  simp [FIFOCache.getItem, h]

/-- Witness for C5 at a concrete instance. -/
theorem C5_fifo_getitem_miss_double_count_witness :
    (FIFOCache.mk0 2 : FIFOCache Nat Nat).getItem 0 =
      (none,
        { (FIFOCache.mk0 2 : FIFOCache Nat Nat) with
          misses := (FIFOCache.mk0 2 : FIFOCache Nat Nat).misses + 1,
          hits := (FIFOCache.mk0 2 : FIFOCache Nat Nat).hits + 1 }) :=
  C5_fifo_getitem_miss_double_count (FIFOCache.mk0 2 : FIFOCache Nat Nat) 0 rfl

/-- C10: a `FIFOCache` constructed with `maxsize ≤ 0` fails on its very
first `set`: the eviction branch runs (the dict is empty but its size is
already at capacity) and `next(iter(self._cache.keys()))` on the empty dict
raises `StopIteration`, so nothing is inserted. -/
theorem C10_fifo_set_nonpositive_maxsize_fails (m : Int) (hm : m ≤ 0)
    (key : K) (value : V) :
    (FIFOCache.mk0 m : FIFOCache K V).set key value = none := by
  unfold FIFOCache.set
  rw [if_pos]
  · rfl
  · exact ⟨rfl, by simp [FIFOCache.mk0]; omega⟩

/-- Witness for C10 at a concrete instance. -/
theorem C10_fifo_set_nonpositive_maxsize_fails_witness :
    (FIFOCache.mk0 0 : FIFOCache Nat Nat).set 1 10 = none :=
  C10_fifo_set_nonpositive_maxsize_fails 0 (by decide) 1 10

/-- C4 counterexample: the `maxsize` property setter is part of the public
interface (`cache.maxsize = n`) and assigns the given value directly, so it
can decrease `maxsize` below its current value. -/
theorem C4_counterexample :
    ((LRUCache.mk0 5 : LRUCache Nat Nat).setMaxsize 3).maxsize <
      (LRUCache.mk0 5 : LRUCache Nat Nat).maxsize := by
  decide

/-- C4 amended: `grow n` sets `maxsize` to `max maxsize n`, so it leaves
`maxsize` unchanged when it is already at least `n`, sets it to exactly `n`
when `n` is larger, and never decreases it; and no public operation other
than the `maxsize` property setter ever changes `maxsize` at all (except
`grow`, which can only increase it). -/
theorem C4_amended_grow_monotone (c : LRUCache K V) (n : Int) :
    (c.grow n).maxsize = max c.maxsize n ∧
    (n ≤ c.maxsize → (c.grow n).maxsize = c.maxsize) ∧
    (c.maxsize < n → (c.grow n).maxsize = n) ∧
    c.maxsize ≤ (c.grow n).maxsize ∧
    (∀ (k : K) (v : V), (c.set k v).maxsize = c.maxsize) ∧
    (∀ k : K, ((c.get k).2).maxsize = c.maxsize) ∧
    (∀ k : K, ((c.getItem k).2).maxsize = c.maxsize) ∧
    c.clear.maxsize = c.maxsize := by
  refine ⟨rfl, ?_, ?_, ?_, LRUCache.set_maxsize c, LRUCache.get_maxsize c,
    LRUCache.getItem_maxsize c, rfl⟩
  · intro h
    simp [LRUCache.grow, LRUCache.setMaxsize, max_eq_left h]
  · intro h
    simp [LRUCache.grow, LRUCache.setMaxsize, max_eq_right (le_of_lt h)]
  · exact le_max_left _ _

/-- Witness for the amended C4 at concrete instances. -/
theorem C4_amended_grow_monotone_witness :
    ((LRUCache.mk0 2 : LRUCache Nat Nat).grow 5).maxsize = 5 ∧
    ((LRUCache.mk0 7 : LRUCache Nat Nat).grow 4).maxsize = 7 :=
  ⟨(C4_amended_grow_monotone (LRUCache.mk0 2 : LRUCache Nat Nat) 5).2.2.1
      (by decide),
   (C4_amended_grow_monotone (LRUCache.mk0 7 : LRUCache Nat Nat) 4).2.1
      (by decide)⟩

/-- C6 counterexample: a failed `get` on an `LRUCache` does mutate the cache
state — it increments the `misses` counter — so the state after the lookup
differs from the state before. -/
theorem C6_counterexample :
    ((LRUCache.mk0 1 : LRUCache Nat Nat).get 0).2 ≠
      (LRUCache.mk0 1 : LRUCache Nat Nat) := by
  decide

/-- C6 amended: a failed lookup never mutates the mapping, the ring order,
the `full` flag or `maxsize`; only the diagnostic counters change: LRU `get`
and indexed access increment `misses` by one, FIFO indexed access increments
both `misses` and `hits` by one, and FIFO `get` changes nothing at all. -/
theorem C6_amended_failed_lookup_effect (c : LRUCache K V)
    (f : FIFOCache K V) (key : K) (default : V)
    (hc : dictLookup c.ring key = none) (hf : dictLookup f.cache key = none) :
    (c.get key).2 = { c with misses := c.misses + 1 } ∧
    (c.getItem key).2 = { c with misses := c.misses + 1 } ∧
    f.get key default = default ∧
    f.getItem key =
      (none, { f with misses := f.misses + 1, hits := f.hits + 1 }) := by
  refine ⟨?_, ?_, ?_, ?_⟩ <;>
    simp [LRUCache.get, LRUCache.getItem, FIFOCache.get, FIFOCache.getItem,
      hc, hf]

/-- Witness for the amended C6 at a concrete instance. -/
theorem C6_amended_failed_lookup_effect_witness :
    ((LRUCache.mk0 1 : LRUCache Nat Nat).get 0).2 =
      { (LRUCache.mk0 1 : LRUCache Nat Nat) with
        misses := (LRUCache.mk0 1 : LRUCache Nat Nat).misses + 1 } ∧
    ((LRUCache.mk0 1 : LRUCache Nat Nat).getItem 0).2 =
      { (LRUCache.mk0 1 : LRUCache Nat Nat) with
        misses := (LRUCache.mk0 1 : LRUCache Nat Nat).misses + 1 } ∧
    (FIFOCache.mk0 1 : FIFOCache Nat Nat).get 0 7 = 7 ∧
    (FIFOCache.mk0 1 : FIFOCache Nat Nat).getItem 0 =
      (none, { (FIFOCache.mk0 1 : FIFOCache Nat Nat) with
        misses := (FIFOCache.mk0 1 : FIFOCache Nat Nat).misses + 1,
        hits := (FIFOCache.mk0 1 : FIFOCache Nat Nat).hits + 1 }) :=
  C6_amended_failed_lookup_effect (LRUCache.mk0 1) (FIFOCache.mk0 1) 0 7
    rfl rfl

/-- C7: on a `FIFOCache`, `set` on a key that is already present succeeds,
overwrites the stored value in place, keeps the insertion-order position of
every key (the key list is unchanged, so the key is not moved to the back),
evicts nothing (same number of entries, all other keys keep their values),
and leaves `maxsize` and the counters unchanged. -/
theorem C7_fifo_set_existing_overwrite (c : FIFOCache K V) (key : K)
    (value : V) (h : dictContains c.cache key = true) :
    ∃ c2, c.set key value = some c2 ∧
      c2.keys = c.keys ∧
      dictLookup c2.cache key = some value ∧
      (∀ k2, k2 ≠ key → dictLookup c2.cache k2 = dictLookup c.cache k2) ∧
      c2.cache.length = c.cache.length ∧
      c2.maxsize = c.maxsize ∧ c2.hits = c.hits ∧ c2.misses = c.misses := by
  have hset : c.set key value =
      some { c with cache := dictInsert c.cache key value } := by
    unfold FIFOCache.set
    rw [if_neg]
    intro hand
    rw [hand.1] at h
    exact Bool.false_ne_true h
  refine ⟨_, hset, ?_, ?_, ?_, ?_, rfl, rfl, rfl⟩
  · exact map_fst_dictInsert_of_contains h value
  · exact dictLookup_dictInsert_self c.cache key value
  · exact fun k2 hk2 => dictLookup_dictInsert_of_ne hk2 c.cache value
  · exact length_dictInsert_of_contains h value

/-- Witness for C7 at a concrete instance. -/
theorem C7_fifo_set_existing_overwrite_witness :
    ∃ c2, (⟨2, [(1, 10)], 0, 0⟩ : FIFOCache Nat Nat).set 1 99 = some c2 ∧
      c2.keys = (⟨2, [(1, 10)], 0, 0⟩ : FIFOCache Nat Nat).keys ∧
      dictLookup c2.cache 1 = some 99 ∧
      (∀ k2, k2 ≠ 1 →
        dictLookup c2.cache k2 =
          dictLookup (⟨2, [(1, 10)], 0, 0⟩ : FIFOCache Nat Nat).cache k2) ∧
      c2.cache.length =
        (⟨2, [(1, 10)], 0, 0⟩ : FIFOCache Nat Nat).cache.length ∧
      c2.maxsize = (⟨2, [(1, 10)], 0, 0⟩ : FIFOCache Nat Nat).maxsize ∧
      c2.hits = (⟨2, [(1, 10)], 0, 0⟩ : FIFOCache Nat Nat).hits ∧
      c2.misses = (⟨2, [(1, 10)], 0, 0⟩ : FIFOCache Nat Nat).misses :=
  C7_fifo_set_existing_overwrite (⟨2, [(1, 10)], 0, 0⟩ : FIFOCache Nat Nat)
    1 99 (by decide)

/-- C8: on a fresh `FIFOCache` with `maxsize = 2`, after `set A vA; set B vB;
set C vC` with pairwise-distinct keys the evicted key is `A` (the first key
in insertion order): the remaining keys are exactly `[B, C]`, `A` is absent,
and a later `get A default` returns the default. -/
theorem C8_fifo_eviction_order (A B C : K) (vA vB vC default : V)
    (hAB : A ≠ B) (hAC : A ≠ C) (hBC : B ≠ C) :
    ∃ c3, (FIFOCache.mk0 2 : FIFOCache K V).setAll
        [(A, vA), (B, vB), (C, vC)] = some c3 ∧
      c3.keys = [B, C] ∧
      dictContains c3.cache A = false ∧
      c3.get A default = default := by
  have h1 : (FIFOCache.mk0 2 : FIFOCache K V).set A vA =
      some ⟨2, [(A, vA)], 0, 0⟩ := by
    norm_num [FIFOCache.set, FIFOCache.mk0, dictContains, dictInsert]
  have h2 : (⟨2, [(A, vA)], 0, 0⟩ : FIFOCache K V).set B vB =
      some ⟨2, [(A, vA), (B, vB)], 0, 0⟩ := by
    norm_num [FIFOCache.set, dictContains, dictInsert, hAB]
  have h3 : (⟨2, [(A, vA), (B, vB)], 0, 0⟩ : FIFOCache K V).set C vC =
      some ⟨2, [(B, vB), (C, vC)], 0, 0⟩ := by
    norm_num [FIFOCache.set, dictContains, dictPop, dictInsert, hAC, hBC]
  refine ⟨⟨2, [(B, vB), (C, vC)], 0, 0⟩, ?_, rfl, ?_, ?_⟩
  · simp [FIFOCache.setAll, h1, h2, h3]
  · simp [dictContains, Ne.symm hAB, Ne.symm hAC]
  · simp [FIFOCache.get, dictLookup, Ne.symm hAB, Ne.symm hAC]

/-- Witness for C8 at a concrete instance. -/
theorem C8_fifo_eviction_order_witness :
    ∃ c3, (FIFOCache.mk0 2 : FIFOCache Nat Nat).setAll
        [(1, 10), (2, 20), (3, 30)] = some c3 ∧
      c3.keys = [2, 3] ∧
      dictContains c3.cache 1 = false ∧
      c3.get 1 7 = 7 :=
  C8_fifo_eviction_order 1 2 3 10 20 30 7 (by decide) (by decide) (by decide)

/-- C9: if the head entry of the ring has key `key`, then any sequence of
repeated lookups of `key` (each either a `get` or an indexed access) leaves
the ring — and hence the mapping and its key set — exactly unchanged: no
relinking, no eviction, no key removed. -/
theorem C9_repeated_head_lookups (c : LRUCache K V) (key : K)
    (forms : List Bool) (h : headKey c.ring = some key) :
    (c.lookupSeq key forms).ring = c.ring ∧
    (c.lookupSeq key forms).keys = c.keys := by
  suffices hs : ∀ (fs : List Bool) (c0 : LRUCache K V),
      headKey c0.ring = some key → (c0.lookupSeq key fs).ring = c0.ring by
    refine ⟨hs forms c h, ?_⟩
    rw [LRUCache.keys, LRUCache.keys, hs forms c h]
  intro fs
  induction fs with
  | nil => exact fun c0 _ => rfl
  | cons b rest ih =>
    intro c0 hc0
    have hg := LRUCache.get_head_state c0 key hc0
    have hgi := LRUCache.getItem_head_state c0 key hc0
    have hstep : (if b then (c0.get key).2 else (c0.getItem key).2) =
        { c0 with hits := c0.hits + 1 } := by
      cases b
      · simpa using hgi
      · simpa using hg
    simp only [LRUCache.lookupSeq]
    rw [hstep]
    exact ih { c0 with hits := c0.hits + 1 } hc0

/-- Witness for C9 at a concrete instance. -/
theorem C9_repeated_head_lookups_witness :
    (((LRUCache.mk0 2 : LRUCache Nat Nat).set 1 10).lookupSeq 1
        [true, false, true]).ring =
      ((LRUCache.mk0 2 : LRUCache Nat Nat).set 1 10).ring ∧
    (((LRUCache.mk0 2 : LRUCache Nat Nat).set 1 10).lookupSeq 1
        [true, false, true]).keys =
      ((LRUCache.mk0 2 : LRUCache Nat Nat).set 1 10).keys :=
  C9_repeated_head_lookups ((LRUCache.mk0 2 : LRUCache Nat Nat).set 1 10) 1
    [true, false, true] (by decide)
